import Mathlib

/-!
# Verification of `git_history_logbook.py`

A shallow embedding, in Lean, of the data model and the operations of
`git_history_logbook.py` (class `GitHistoryLogbook` plus `main`), together
with theorems settling the specification claims about it.

Conventions of the embedding:
* Python strings are `String` (manipulated through their `List Char` data);
  Python `str.strip()` / `str.split(sep)` / `str.split(sep, maxsplit)` are
  modelled by `pyStrip`, `splitOnChar`, `splitAtMost`.
* `subprocess.run` results (including `TimeoutExpired` and other exceptions)
  are injected through the `ExecOutcome` oracle type, so the pure parsing and
  control-flow logic can be stated over every possible process outcome.
* Filesystem side effects (`git clone`, `git fetch`, `git log`, workspace
  acquisition) are recorded as `GitEffect` values so that claims about which
  external operations run can be stated.
* Python exceptions are `Except` values; a `try/except` block is a `match` on
  the `Except` outcome of its body.
-/

/-- The commit dictionary built by `_get_commit_history`
(src/git_history_logbook.py lines 151-159): keys
`repository`, `project`, `hash`, `author_name`, `date`, `subject`, `body`. -/
structure CommitRecord where
  repository : String
  project : String
  hash : String
  author_name : String
  date : String
  subject : String
  body : String
deriving DecidableEq, Repr

/-- The ASCII whitespace characters removed by Python's `str.strip()`
(space, tab, newline, carriage return, vertical tab, form feed). -/
def pyIsSpace (c : Char) : Bool :=
  c = ' ' || c = '\t' || c = '\n' || c = '\r' || c = '\x0b' || c = '\x0c'

/-- Python `str.strip()` on the character list of a string: drop whitespace
from both ends. -/
def pyStrip (l : List Char) : List Char :=
  ((l.dropWhile pyIsSpace).reverse.dropWhile pyIsSpace).reverse

/-- Split a character list at the first occurrence of `sep`: `none` when
`sep` does not occur, otherwise the part before and the part after it. -/
def splitFirst (sep : Char) : List Char → Option (List Char × List Char)
  | [] => none
  | c :: cs =>
    if c = sep then some ([], cs)
    else
      match splitFirst sep cs with
      | none => none
      | some (pre, post) => some (c :: pre, post)

/-- Python `str.split(sep, maxsplit)`: at most `n` splits, the remainder
(separators included) is the final field. -/
def splitAtMost (sep : Char) : Nat → List Char → List (List Char)
  | 0, l => [l]
  | n + 1, l =>
    match splitFirst sep l with
    | none => [l]
    | some (pre, post) => pre :: splitAtMost sep n post

/-- Helper for `splitOnChar`: the accumulator holds the current field,
reversed. -/
def splitOnCharAux (sep : Char) : List Char → List Char → List (List Char)
  | [], acc => [acc.reverse]
  | c :: cs, acc =>
    if c = sep then acc.reverse :: splitOnCharAux sep cs []
    else splitOnCharAux sep cs (c :: acc)

/-- Python `str.split(sep)` (no maxsplit): split at every occurrence. -/
def splitOnChar (sep : Char) (l : List Char) : List (List Char) :=
  splitOnCharAux sep l []

/-- `result.stdout.strip().split('\n')` at src line 140: the physical lines
of the log output. -/
def linesOf (s : String) : List String :=
  (splitOnChar '\n' (pyStrip s.data)).map (fun l => ⟨l⟩)

/-- One iteration of the parse loop at src lines 142-161: skip a line that is
empty after stripping, split the line on `'|'` with maxsplit 4, skip it when
fewer than 4 fields result, otherwise build the commit record; the body is
the fifth field when present, else the empty string. -/
def parseLine (repoName project : String) (line : String) : Option CommitRecord :=
  if pyStrip line.data = [] then none
  else
    match splitAtMost '|' 4 line.data with
    | p0 :: p1 :: p2 :: p3 :: rest =>
      some { repository := repoName, project := project,
             hash := ⟨p0⟩, author_name := ⟨p1⟩, date := ⟨p2⟩, subject := ⟨p3⟩,
             body := match rest with | [] => "" | b :: _ => ⟨b⟩ }
    | _ => none

/-- The pure parsing part of `_get_commit_history` (src lines 138-164):
split stdout into lines and collect one record per surviving line. -/
def parseGitLog (repoName project : String) (stdout : String) : List CommitRecord :=
  (linesOf stdout).filterMap (parseLine repoName project)

/-- Outcome of a `subprocess.run` call: `TimeoutExpired`, another raised
exception, or completion with a return code, stdout and stderr. -/
inductive ExecOutcome where
  | timeout
  | exc (msg : String)
  | completed (returncode : Int) (stdout stderr : String)
deriving DecidableEq, Repr

/-- `_get_commit_history` (src lines 111-171) as a function of the outcome of
its `git log` subprocess: timeout and exceptions are caught and yield `[]`,
a non-zero return code yields `[]`, otherwise the stdout is parsed. -/
def getCommitHistory (repoName project : String) (res : ExecOutcome) : List CommitRecord :=
  match res with
  | .timeout => []
  | .exc _ => []
  | .completed code out _ => if code ≠ 0 then [] else parseGitLog repoName project out

/-- A repository entry of the configuration (src lines 175-177 read keys
`name`, `url`, `project` with `dict.get` defaults). A missing key is `none`. -/
structure RepoDescriptor where
  name : Option String
  url : Option String
  project : Option String
deriving DecidableEq, Repr

/-- `repo_info.get('name', 'unknown')` (src line 175). -/
def RepoDescriptor.nameD (r : RepoDescriptor) : String := r.name.getD "unknown"

/-- `repo_info.get('url', '')` (src line 176). -/
def RepoDescriptor.urlD (r : RepoDescriptor) : String := r.url.getD ""

/-- `repo_info.get('project', 'Unknown')` (src line 177). -/
def RepoDescriptor.projectD (r : RepoDescriptor) : String := r.project.getD "Unknown"

/-- External operations performed while processing one repository:
workspace (temp directory) acquisition, `git clone`, `git fetch --all`,
and `git log` at a working-tree path. -/
inductive GitEffect where
  | acquireWorkspace
  | clone (url : String)
  | fetchAll (path : String)
  | gitLog (path : String)
deriving DecidableEq, Repr

/-- `_process_repository` (src lines 173-216) as a pure function. `pathExists`
models `os.path.exists`; `tempDir` is the name of the temp directory the
workspace manager would create; `cloneOut` and `logOut` are the outcomes of
the `git clone` and `git log` subprocesses. Returns the external operations
performed and the records extracted:
* empty url (missing `url` key or `''`): log an error, return `[]` at once;
* existing local path: run `git log` there directly;
* otherwise acquire a workspace and clone; clone non-zero exit, timeout or
  exception returns `[]` (caught at src lines 201-203 and 214-216); on clone
  success, `git fetch --all` then `git log` run in the clone. -/
def processRepository (pathExists : String → Bool) (tempDir : String)
    (cloneOut logOut : ExecOutcome) (repo : RepoDescriptor) :
    List GitEffect × List CommitRecord :=
  let url := repo.urlD
  if url = "" then ([], [])
  else if pathExists url then
    ([.gitLog url], getCommitHistory repo.nameD repo.projectD logOut)
  else
    let clonePath := tempDir ++ "/" ++ repo.nameD
    match cloneOut with
    | .completed code _ _ =>
      if code ≠ 0 then ([.acquireWorkspace, .clone url], [])
      else ([.acquireWorkspace, .clone url, .fetchAll clonePath, .gitLog clonePath],
            getCommitHistory repo.nameD repo.projectD logOut)
    | _ => ([.acquireWorkspace, .clone url], [])

/-- The result-collection loop of `export_history` (src lines 230-237): each
repository task yields either a record list or a raised exception; exceptions
are caught and contribute nothing, successes are appended in completion
order. -/
def collectResults : List (Except String (List CommitRecord)) → List CommitRecord
  | [] => []
  | Except.ok commits :: rest => commits ++ collectResults rest
  | Except.error _ :: rest => collectResults rest

/-- The author filter of `export_history` (src lines 239-246): applied only
when the config key `selected_authors` is present (`some`) and its list is
non-empty (Python truthiness of `self.config.get('selected_authors')` plus
the explicit length check); keeps the records whose `author_name` is in the
list. -/
def filterByAuthors (selectedAuthors : Option (List String))
    (commits : List CommitRecord) : List CommitRecord :=
  match selectedAuthors with
  | some sel =>
    if sel.length > 0 then commits.filter (fun c => sel.contains c.author_name)
    else commits
  | none => commits

/-- Lexicographic comparison of character lists by code point: Python's `<=`
on `str`, which `list.sort(key=lambda x: x['date'])` compares with. -/
def charsLe : List Char → List Char → Bool
  | [], _ => true
  | _ :: _, [] => false
  | a :: as_, b :: bs => if a = b then charsLe as_ bs else decide (a.toNat < b.toNat)

/-- Python string `<=` on the underlying character data. -/
def pyStrLe (a b : String) : Bool := charsLe a.data b.data

/-- `all_commits.sort(key=lambda x: x['date'], reverse=True)` (src line 249):
stable descending sort on the raw date string. A stable sort with a fixed
comparison is extensionally unique, so insertion sort is the model. -/
def sortByRawDate (commits : List CommitRecord) : List CommitRecord :=
  List.insertionSort (fun a b => pyStrLe b.date a.date = true) commits

/-- `export_history` (src lines 218-250): collect the per-repository results,
filter by the configured authors, sort by raw date descending. -/
def exportHistory (selectedAuthors : Option (List String))
    (repoResults : List (Except String (List CommitRecord))) : List CommitRecord :=
  sortByRawDate (filterByAuthors selectedAuthors (collectResults repoResults))

/-- `(y % 4 == 0 and y % 100 != 0) or y % 400 == 0`: the Gregorian leap-year
rule `datetime` validates day-of-month against. -/
def isLeapYear (y : Nat) : Bool := (y % 4 = 0 && y % 100 ≠ 0) || y % 400 = 0

/-- Days in a month, as validated by `datetime`. -/
def daysInMonth (y m : Nat) : Nat :=
  if m = 2 then (if isLeapYear y then 29 else 28)
  else if m = 4 || m = 6 || m = 9 || m = 11 then 30
  else 31

/-- The numeric value of a digit character. -/
def digitVal (c : Char) : Nat := c.toNat - 48

/-- `datetime.strptime(date[:19], '%Y-%m-%d %H:%M:%S')` (src lines 270 and
316), modelled for the fixed-width shape the `--date=iso` git output has:
take the first 19 characters; they must be `DDDD-DD-DD DD:DD:DD` with all
fields digits and in the ranges `datetime` accepts (year ≥ 1, month 1-12,
day 1-daysInMonth, hour ≤ 23, minute ≤ 59, second ≤ 59); the result is a
timestamp rank strictly monotone in (year, month, day, hour, minute, second).
A date that does not match raises `ValueError` in Python, i.e. `none` here.
(`strptime` also tolerates narrower numeric fields; ISO git dates never
exercise that, and no claim depends on it.) -/
def parseDate19 (s : String) : Option Nat :=
  match s.data.take 19 with
  | [y1, y2, y3, y4, c1, m1, m2, c2, d1, d2, c3, h1, h2, c4, mi1, mi2, c5, s1, s2] =>
    if c1 = '-' && c2 = '-' && c3 = ' ' && c4 = ':' && c5 = ':' &&
       y1.isDigit && y2.isDigit && y3.isDigit && y4.isDigit &&
       m1.isDigit && m2.isDigit && d1.isDigit && d2.isDigit &&
       h1.isDigit && h2.isDigit && mi1.isDigit && mi2.isDigit &&
       s1.isDigit && s2.isDigit then
      let y := ((digitVal y1 * 10 + digitVal y2) * 10 + digitVal y3) * 10 + digitVal y4
      let mo := digitVal m1 * 10 + digitVal m2
      let d := digitVal d1 * 10 + digitVal d2
      let h := digitVal h1 * 10 + digitVal h2
      let mi := digitVal mi1 * 10 + digitVal mi2
      let sec := digitVal s1 * 10 + digitVal s2
      if 1 ≤ y && 1 ≤ mo && mo ≤ 12 && 1 ≤ d && d ≤ daysInMonth y mo &&
         h ≤ 23 && mi ≤ 59 && sec ≤ 59 then
        some (((((y * 12 + (mo - 1)) * 31 + (d - 1)) * 24 + h) * 60 + mi) * 60 + sec)
      else none
    else none
  | _ => none

/-- The sort key `generate_logbook` assigns (src lines 314-318): the parsed
date, or the current time `now` when parsing raises. -/
def commitSortKey (now : Nat) (c : CommitRecord) : Nat :=
  (parseDate19 c.date).getD now

/-- The `parsed_date` sort of `generate_logbook` (src lines 313-321): stable
descending sort on the parsed timestamp, which fixes the order the rendered
logbook (and hence the final result) presents. -/
def generateLogbookOrder (now : Nat) (commits : List CommitRecord) :
    List CommitRecord :=
  List.insertionSort (fun a b => commitSortKey now b ≤ commitSortKey now a) commits

/-- The `fieldnames` list of `save_to_csv` (src line 258): the CSV column
header. -/
def csvFieldnames : List String :=
  ["repository", "project", "hash", "author_name", "date", "subject", "body"]

/-- A commit record's values in `fieldnames` order, as `csv.DictWriter`
writes them. -/
def commitFields (c : CommitRecord) : List String :=
  [c.repository, c.project, c.hash, c.author_name, c.date, c.subject, c.body]

/-- `csv` default dialect, `QUOTE_MINIMAL`: a field is quoted when it holds
the delimiter, the quote character, or a line-terminator character. -/
def csvNeedsQuote (f : List Char) : Bool :=
  f.any (fun c => c = ',' || c = '"' || c = '\r' || c = '\n')

/-- Double every quote character (the `csv` escaping inside a quoted
field). -/
def csvEscape : List Char → List Char
  | [] => []
  | c :: cs => if c = '"' then '"' :: '"' :: csvEscape cs else c :: csvEscape cs

/-- Render one field under `QUOTE_MINIMAL`. -/
def csvQuoteField (f : List Char) : List Char :=
  if csvNeedsQuote f then '"' :: (csvEscape f ++ ['"']) else f

/-- Join rendered fields with the `,` delimiter. -/
def csvJoinFields : List (List Char) → List Char
  | [] => []
  | [f] => f
  | f :: fs => f ++ ',' :: csvJoinFields fs

/-- One written CSV row over raw character fields: fields joined by the
delimiter, then the default `\r\n` line terminator. -/
def csvWriteRowChars (fields : List (List Char)) : List Char :=
  csvJoinFields (fields.map csvQuoteField) ++ ['\r', '\n']

/-- One row as `csv.DictWriter.writerow` emits it (src lines 261-263). -/
def csvWriteRow (fields : List String) : List Char :=
  csvWriteRowChars (fields.map String.data)

/-- The header row `writer.writeheader()` emits (src line 262). -/
def csvHeaderRow : List Char := csvWriteRow csvFieldnames

/-- `csv.reader` inside a quoted field: a doubled quote is a literal quote,
a single quote closes the field; input ending inside the field closes it. -/
def csvParseQuoted : List Char → List Char → List Char × List Char
  | [], acc => (acc.reverse, [])
  | c :: cs, acc =>
    if c = '"' then
      match cs with
      | [] => (acc.reverse, [])
      | c2 :: cs2 =>
        if c2 = '"' then csvParseQuoted cs2 ('"' :: acc)
        else (acc.reverse, c2 :: cs2)
    else csvParseQuoted cs (c :: acc)

/-- `csv.reader` inside an unquoted field: the field runs to the delimiter
or the record end. -/
def csvTakeUnquoted : List Char → List Char × List Char
  | [] => ([], [])
  | c :: cs =>
    if c = ',' || c = '\r' || c = '\n' then ([], c :: cs)
    else
      let (f, r) := csvTakeUnquoted cs
      (c :: f, r)

/-- One `csv.reader` field: quoted when it opens with the quote character,
unquoted otherwise; returns the field and the remaining input. -/
def csvParseField : List Char → List Char × List Char
  | [] => csvTakeUnquoted []
  | c :: cs => if c = '"' then csvParseQuoted cs [] else csvTakeUnquoted (c :: cs)

/-- One `csv.reader` record, fuelled (each step consumes at least the
field's delimiter, so `length + 1` fuel suffices). -/
def csvParseRecordAux : Nat → List Char → List (List Char)
  | 0, _ => []
  | fuel + 1, l =>
    let fr := csvParseField l
    match fr.2 with
    | [] => [fr.1]
    | c :: cs2 => if c = ',' then fr.1 :: csvParseRecordAux fuel cs2 else [fr.1]

/-- Re-reading one written row with `csv.reader`: parse the fields of the
first record of the text. -/
def csvParseRecord (l : List Char) : List String :=
  (csvParseRecordAux (l.length + 1) l).map (fun f => ⟨f⟩)

/-- A Python exception, as far as `_cleanup_directory` distinguishes them:
`PermissionError` or anything else. -/
inductive PyError where
  | permissionError
  | other (msg : String)
deriving DecidableEq, Repr

/-- The message used in the logged warning. -/
def PyError.message : PyError → String
  | .permissionError => "permission denied"
  | .other m => m

/-- What `_cleanup_directory` did on one call. -/
inductive CleanupStatus where
  | nothingToDo
  | cleaned
  | cleanedWindows
  | warnedFallback (msg : String)
  | warnedOther (msg : String)
deriving DecidableEq, Repr

/-- `_cleanup_directory` (src lines 67-83): `dirExists` models
`os.path.exists(directory)`, `rmtreeOutcome` the `shutil.rmtree` call,
`fallbackOutcome` the `subprocess.run(['rmdir', ...])` fallback call. The
result is `.error` exactly when an exception escapes to the caller:
`PermissionError` from `rmtree` triggers the one fallback attempt, whose own
exception is caught and logged as a warning; any other `rmtree` exception is
caught and logged as a warning. -/
def cleanupDirectory (dirExists : Bool) (rmtreeOutcome : Except PyError Unit)
    (fallbackOutcome : Except PyError Unit) : Except PyError CleanupStatus :=
  if dirExists then
    match rmtreeOutcome with
    | .ok _ => .ok .cleaned
    | .error .permissionError =>
      match fallbackOutcome with
      | .ok _ => .ok .cleanedWindows
      | .error e => .ok (.warnedFallback e.message)
    | .error (.other m) => .ok (.warnedOther m)
  else .ok .nothingToDo

/-- `os.path.basename` on a POSIX path: the part after the last `/`. -/
def basenameOf (p : String) : String :=
  ⟨(splitOnChar '/' p.data).getLastD []⟩

/-- Repository selection in `main` (src lines 602-610): repositories come
from the config when it has a truthy (non-empty) `repositories` list, else
from `--repos` when given (argparse `nargs='+'` makes it non-empty), else
none are specified. `--repos` entries become `{name: basename, url: repo}`
descriptors. -/
def selectRepositories (configRepos : Option (List RepoDescriptor))
    (argsRepos : Option (List String)) : Option (List RepoDescriptor) :=
  match configRepos with
  | some (r :: rs) => some (r :: rs)
  | _ =>
    match argsRepos with
    | some (a :: as_) =>
      some ((a :: as_).map (fun p => ⟨some (basenameOf p), some p, none⟩))
    | _ => none

/-- Outcome of the body of `main`'s `try` block once repositories are
selected: the collected commits, or a `KeyboardInterrupt`, or another
exception. -/
inductive CollectOutcome where
  | ok (commits : List CommitRecord)
  | interrupt
  | exc (msg : String)
deriving DecidableEq, Repr

/-- What `main` returned and whether the logbook output files were
written. -/
structure MainResult where
  exitCode : Nat
  filesWritten : Bool
deriving DecidableEq, Repr

/-- `main` (src lines 583-669) as a function of its repository sources and
the collection outcome: no repositories → print error, return 1 before any
file is written; `KeyboardInterrupt` → 1; unhandled exception → 1 (src lines
661-666); zero commits collected → 1 with no files (src lines 641-643);
otherwise the logbook files are generated and 0 is returned (src line
659). -/
def mainRun (configRepos : Option (List RepoDescriptor))
    (argsRepos : Option (List String)) (outcome : CollectOutcome) : MainResult :=
  match selectRepositories configRepos argsRepos with
  | none => ⟨1, false⟩
  | some _ =>
    match outcome with
    | .interrupt => ⟨1, false⟩
    | .exc _ => ⟨1, false⟩
    | .ok commits => if commits.isEmpty then ⟨1, false⟩ else ⟨0, true⟩

/-- The record a line with at least 4 delimiter-separated fields yields:
field `i` of the `maxsplit=4` split, with the missing 5th field defaulting
to the empty string (`getD` of the absent index). Spelled from the spec's
description of the surviving-line shape, to be compared with `parseLine`. -/
def recordOfLine (repoName project : String) (line : String) : CommitRecord :=
  let parts := splitAtMost '|' 4 line.data
  { repository := repoName, project := project,
    hash := ⟨parts.getD 0 []⟩, author_name := ⟨parts.getD 1 []⟩,
    date := ⟨parts.getD 2 []⟩, subject := ⟨parts.getD 3 []⟩,
    body := ⟨parts.getD 4 []⟩ }

/-- A well-formed log line: at least 4 delimiter-separated fields, and the
hash field (first) and subject field (fourth) non-empty. -/
def wellFormedLine (line : String) : Bool :=
  let parts := splitAtMost '|' 4 line.data
  decide (4 ≤ parts.length) && !(parts.getD 0 []).isEmpty && !(parts.getD 3 []).isEmpty

/-! ## Helper lemmas -/

-- Sanity checks of the embedded operations on concrete inputs.
example :
    parseGitLog "r" "p" "abc|Alice|2024-01-02 03:04:05 +0000|subj|body line" =
      [{ repository := "r", project := "p", hash := "abc", author_name := "Alice",
         date := "2024-01-02 03:04:05 +0000", subject := "subj", body := "body line" }] := by
  decide

example :
    parseGitLog "r" "p" "h1|A|d1|s1\nbroken line\nh2|B|d2|s2|b2|extra" =
      [{ repository := "r", project := "p", hash := "h1", author_name := "A",
         date := "d1", subject := "s1", body := "" },
       { repository := "r", project := "p", hash := "h2", author_name := "B",
         date := "d2", subject := "s2", body := "b2|extra" }] := by
  decide

example : parseDate19 "2024-01-02 03:04:05 +0000" = some 65053076645 := by decide
example : parseDate19 "not a date" = none := by decide
example : parseDate19 "2024-02-30 00:00:00" = none := by decide

example :
    csvParseRecord (csvWriteRow ["a", "b,c", "d\"e", "", "f\r\ng", "h", "i"]) =
      ["a", "b,c", "d\"e", "", "f\r\ng", "h", "i"] := by decide

theorem splitAtMost_length_le (sep : Char) :
    ∀ (n : Nat) (l : List Char), (splitAtMost sep n l).length ≤ n + 1 := by
  intro n
  induction n with
  | zero => intro l; simp [splitAtMost]
  | succ n ih =>
    intro l
    rw [splitAtMost]
    cases h : splitFirst sep l with
    | none => simp
    | some pr =>
      cases pr with
      | mk pre post =>
        simpa using Nat.succ_le_succ (ih post)

theorem splitFirst_eq_none_of_not_mem {sep : Char} :
    ∀ {l : List Char}, (∀ c ∈ l, c ≠ sep) → splitFirst sep l = none := by
  intro l
  induction l with
  | nil => intro _; rfl
  | cons c cs ih =>
    intro h
    rw [splitFirst]
    rw [if_neg (h c (by simp))]
    rw [ih (fun x hx => h x (by simp [hx]))]

theorem pyStrip_eq_nil_all_space {l : List Char} (h : pyStrip l = []) :
    ∀ c ∈ l, pyIsSpace c = true := by
  intro c hc
  unfold pyStrip at h
  rw [List.reverse_eq_nil_iff] at h
  rw [List.dropWhile_eq_nil_iff] at h
  have hdrop : ∀ x ∈ l.dropWhile pyIsSpace, pyIsSpace x = true := by
    intro x hx
    exact h x (by simpa using hx)
  have hsplit := List.takeWhile_append_dropWhile (p := pyIsSpace) (l := l)
  rw [← hsplit] at hc
  rcases List.mem_append.mp hc with htake | hdropmem
  · exact List.mem_takeWhile_imp htake
  · exact hdrop c hdropmem

theorem pyStrip_ne_nil_of_fields {line : List Char}
    (h4 : 4 ≤ (splitAtMost '|' 4 line).length) : pyStrip line ≠ [] := by
  intro hnil
  have hall := pyStrip_eq_nil_all_space hnil
  have hnone : splitFirst '|' line = none := by
    apply splitFirst_eq_none_of_not_mem
    intro c hc hceq
    have := hall c hc
    rw [hceq] at this
    simp [pyIsSpace] at this
  rw [splitAtMost, hnone] at h4
  simp at h4

theorem parseLine_eq (repoName project line : String) :
    parseLine repoName project line =
      if 4 ≤ (splitAtMost '|' 4 line.data).length
      then some (recordOfLine repoName project line) else none := by
  by_cases h4 : 4 ≤ (splitAtMost '|' 4 line.data).length
  · rw [if_pos h4]
    have hstrip := pyStrip_ne_nil_of_fields h4
    unfold parseLine
    rw [if_neg hstrip]
    have hle := splitAtMost_length_le '|' 4 line.data
    cases hp : splitAtMost '|' 4 line.data with
    | nil => rw [hp] at h4; simp at h4
    | cons p0 t0 =>
      cases t0 with
      | nil => rw [hp] at h4; simp at h4
      | cons p1 t1 =>
        cases t1 with
        | nil => rw [hp] at h4; simp at h4
        | cons p2 t2 =>
          cases t2 with
          | nil => rw [hp] at h4; simp at h4
          | cons p3 rest =>
            cases rest with
            | nil => simp [recordOfLine, hp]
            | cons b rest2 =>
              have hlen : (p0 :: p1 :: p2 :: p3 :: b :: rest2).length ≤ 4 + 1 :=
                hp ▸ hle
              simp only [List.length_cons] at hlen
              have hrest2 : rest2 = [] := List.length_eq_zero.mp (by omega)
              subst hrest2
              simp [recordOfLine, hp]
  · rw [if_neg h4]
    unfold parseLine
    by_cases hstrip : pyStrip line.data = []
    · rw [if_pos hstrip]
    · rw [if_neg hstrip]
      cases hp : splitAtMost '|' 4 line.data with
      | nil => rfl
      | cons p0 t0 =>
        cases t0 with
        | nil => rfl
        | cons p1 t1 =>
          cases t1 with
          | nil => rfl
          | cons p2 t2 =>
            cases t2 with
            | nil => rfl
            | cons p3 rest =>
              exfalso
              apply h4
              rw [hp]
              simp only [List.length_cons]
              omega

theorem filterMap_eq_filter_map {α β : Type} (f : α → Option β) (p : α → Bool)
    (g : α → β) :
    ∀ (ls : List α), (∀ a ∈ ls, f a = if p a then some (g a) else none) →
      ls.filterMap f = (ls.filter p).map g := by
  intro ls
  induction ls with
  | nil => intro _; rfl
  | cons a t ih =>
    intro h
    rw [List.filterMap_cons, List.filter_cons]
    have ha := h a (by simp)
    by_cases hpa : p a = true
    · rw [if_pos hpa] at ha
      rw [ha, if_pos hpa]
      simp [ih (fun x hx => h x (List.mem_cons_of_mem a hx))]
    · rw [if_neg hpa] at ha
      rw [ha, if_neg hpa]
      simp [ih (fun x hx => h x (List.mem_cons_of_mem a hx))]

/-! ## Claim theorems -/

/-- C2: for every log-command output, the extractor splits the output into
physical lines; each line is split on `'|'` into at most 5 fields; every
line yielding fewer than 4 fields is discarded and exactly one
`CommitRecord` is produced per surviving line (in order, with the fields of
its split); and the body is the empty string when the 5th field is
missing. -/
theorem extractor_line_splitting (repoName project out : String) :
    parseGitLog repoName project out =
      ((linesOf out).filter
        (fun l => decide (4 ≤ (splitAtMost '|' 4 l.data).length))).map
        (recordOfLine repoName project) ∧
    (∀ l : List Char, (splitAtMost '|' 4 l).length ≤ 5) ∧
    (∀ l : String, (splitAtMost '|' 4 l.data).length = 4 →
      (recordOfLine repoName project l).body = "") := by
  refine ⟨?_, ?_, ?_⟩
  · unfold parseGitLog
    apply filterMap_eq_filter_map
    intro l _
    rw [parseLine_eq]
    by_cases h : 4 ≤ (splitAtMost '|' 4 l.data).length
    · rw [if_pos h, if_pos (by simpa using h)]
    · rw [if_neg h, if_neg (by simpa using h)]
  · intro l
    exact splitAtMost_length_le '|' 4 l
  · intro l hlen
    unfold recordOfLine
    cases hp : splitAtMost '|' 4 l.data with
    | nil => rw [hp] at hlen; simp at hlen
    | cons p0 t0 =>
      cases t0 with
      | nil => rw [hp] at hlen; simp at hlen
      | cons p1 t1 =>
        cases t1 with
        | nil => rw [hp] at hlen; simp at hlen
        | cons p2 t2 =>
          cases t2 with
          | nil => rw [hp] at hlen; simp at hlen
          | cons p3 rest =>
            rw [hp] at hlen
            simp only [List.length_cons] at hlen
            have : rest = [] := List.length_eq_zero.mp (by omega)
            subst this
            simp

/-- Witness for C2 at a concrete extractor input: the body of a 4-field line
defaults to the empty string, and the parse agrees with the
filter-then-build description on a mixed well-formed/malformed output. -/
theorem extractor_line_splitting_witness :
    (recordOfLine "r" "p" "h|A|d|s").body = "" ∧
    parseGitLog "r" "p" "h|A|d|s\nbad line\nh2|B|d2|s2|b2" =
      ((linesOf "h|A|d|s\nbad line\nh2|B|d2|s2|b2").filter
        (fun l => decide (4 ≤ (splitAtMost '|' 4 l.data).length))).map
        (recordOfLine "r" "p") :=
  ⟨(extractor_line_splitting "r" "p" "").2.2 "h|A|d|s" (by decide),
   (extractor_line_splitting "r" "p" "h|A|d|s\nbad line\nh2|B|d2|s2|b2").1⟩

/-- C5 counterexample: the extractor keeps a line whose first (hash) and
fourth (subject) fields are empty — `"|Alice|2024-01-02 03:04:05 +0000|"`
splits into 4 fields, so a record with empty hash and empty subject reaches
the result, refuting "every collected record has non-empty hash and
subject". -/
theorem extractor_nonempty_fields_counterexample :
    ((parseGitLog "repo" "proj" "|Alice|2024-01-02 03:04:05 +0000|").all
      (fun c => !(c.hash == "") && !(c.subject == ""))) = false := by
  decide

/-- C5 (amended): a record produced from a well-formed line — at least 4
delimiter-separated fields with the first and fourth non-empty — has
non-empty hash and subject; when every line of the output is well-formed,
the extractor returns exactly one record per line. (The code never validates
the hash or subject content itself, so emptiness of those fields must be a
property of the input lines.) -/
theorem extractor_wellformed_lines (repoName project out : String)
    (h : (linesOf out).all wellFormedLine = true) :
    (parseGitLog repoName project out).length = (linesOf out).length ∧
    ∀ c ∈ parseGitLog repoName project out, c.hash ≠ "" ∧ c.subject ≠ "" := by
  rw [List.all_eq_true] at h
  have hsome : ∀ l ∈ linesOf out,
      parseLine repoName project l = some (recordOfLine repoName project l) := by
    intro l hl
    have hwf := h l hl
    unfold wellFormedLine at hwf
    simp only [Bool.and_eq_true, decide_eq_true_eq] at hwf
    rw [parseLine_eq, if_pos hwf.1.1]
  have hmap : parseGitLog repoName project out =
      (linesOf out).map (recordOfLine repoName project) := by
    unfold parseGitLog
    have := filterMap_eq_filter_map (parseLine repoName project)
      (fun _ => true) (recordOfLine repoName project) (linesOf out)
      (fun a ha => by rw [hsome a ha]; simp)
    simpa using this
  constructor
  · rw [hmap, List.length_map]
  · intro c hc
    rw [hmap] at hc
    rcases List.mem_map.mp hc with ⟨l, hl, hcl⟩
    have hwf := h l hl
    unfold wellFormedLine at hwf
    simp only [Bool.and_eq_true, decide_eq_true_eq] at hwf
    have h0 : ((splitAtMost '|' 4 l.data).getD 0 []).isEmpty = false := by
      rcases hwf with ⟨⟨_, h0⟩, _⟩
      simpa using h0
    have h3 : ((splitAtMost '|' 4 l.data).getD 3 []).isEmpty = false := by
      rcases hwf with ⟨_, h3⟩
      simpa using h3
    rw [← hcl]
    constructor
    · intro habs
      rw [List.isEmpty_eq_false] at h0
      apply h0
      simpa [recordOfLine] using congrArg String.data habs
    · intro habs
      rw [List.isEmpty_eq_false] at h3
      apply h3
      simpa [recordOfLine] using congrArg String.data habs

/-- Witness for the amended C5 on a concrete two-line well-formed output. -/
theorem extractor_wellformed_lines_witness :
    (parseGitLog "r" "p" "h1|A|d1|s1\nh2|B|d2|s2|b2").length =
      (linesOf "h1|A|d1|s1\nh2|B|d2|s2|b2").length ∧
    ∀ c ∈ parseGitLog "r" "p" "h1|A|d1|s1\nh2|B|d2|s2|b2",
      c.hash ≠ "" ∧ c.subject ≠ "" :=
  extractor_wellformed_lines "r" "p" "h1|A|d1|s1\nh2|B|d2|s2|b2" (by decide)

/-- C1: the `generate_logbook` ordering pass — which fixes the order of the
final result — is a permutation of its input, pairwise sorted by the
effective timestamp descending (newest first), where the effective timestamp
of a record is the parse of the first 19 characters of its raw date against
`YYYY-MM-DD HH:MM:SS`, falling back to the current time `now` when the parse
fails. Applied to a collected record set (`export_history` output), the
final ordering is a permutation of the author-filtered collection. -/
theorem logbook_order_sorted (now : Nat) (commits : List CommitRecord) :
    List.Perm (generateLogbookOrder now commits) commits ∧
    List.Pairwise (fun a b => commitSortKey now b ≤ commitSortKey now a)
      (generateLogbookOrder now commits) ∧
    (∀ c : CommitRecord, parseDate19 c.date = none → commitSortKey now c = now) ∧
    (∀ (c : CommitRecord) (t : Nat), parseDate19 c.date = some t →
      commitSortKey now c = t) ∧
    (∀ sel rs, List.Perm (generateLogbookOrder now (exportHistory sel rs))
      (filterByAuthors sel (collectResults rs))) := by
  refine ⟨?_, ?_, ?_, ?_, ?_⟩
  · exact List.perm_insertionSort _ commits
  · haveI : IsTotal CommitRecord
        (fun a b => commitSortKey now b ≤ commitSortKey now a) :=
      ⟨fun a b => Nat.le_total (commitSortKey now b) (commitSortKey now a)⟩
    haveI : IsTrans CommitRecord
        (fun a b => commitSortKey now b ≤ commitSortKey now a) :=
      ⟨fun _ _ _ hab hbc => Nat.le_trans hbc hab⟩
    exact List.sorted_insertionSort _ commits
  · intro c h
    unfold commitSortKey
    rw [h]
    rfl
  · intro c t h
    unfold commitSortKey
    rw [h]
    rfl
  · intro sel rs
    exact (List.perm_insertionSort _ _).trans (List.perm_insertionSort _ _)

/-- Witness for C1: the fallback and the parse evaluated at two concrete
records (fields in declaration order; the date is the fifth field). -/
theorem logbook_order_sorted_witness :
    commitSortKey 42 ⟨"r", "p", "h", "A", "not a date", "s", ""⟩ = 42 ∧
    commitSortKey 42 ⟨"r", "p", "h", "A", "2024-01-02 03:04:05 +0000", "s", ""⟩ =
      65053076645 :=
  ⟨(logbook_order_sorted 42 []).2.2.1 _ (by decide),
   (logbook_order_sorted 42 []).2.2.2.1 _ 65053076645 (by decide)⟩

/-- C3: with a non-empty author allow-list the collection result holds
exactly the collected records whose `author_name` is in the list (membership
is case-sensitive string equality); with the list absent or empty, the
filter step drops nothing. -/
theorem author_allowlist_filter (sel : List String)
    (rs : List (Except String (List CommitRecord)))
    (commits : List CommitRecord) (c : CommitRecord) :
    (sel ≠ [] →
      (c ∈ exportHistory (some sel) rs ↔
        c ∈ collectResults rs ∧ c.author_name ∈ sel)) ∧
    filterByAuthors none commits = commits ∧
    filterByAuthors (some []) commits = commits := by
  refine ⟨?_, rfl, by simp [filterByAuthors]⟩
  intro hsel
  unfold exportHistory sortByRawDate
  rw [List.mem_insertionSort]
  have hfil : filterByAuthors (some sel) (collectResults rs) =
      List.filter (fun c => sel.contains c.author_name) (collectResults rs) := by
    simp only [filterByAuthors]
    rw [if_pos (by simpa [List.length_pos] using hsel)]
  rw [hfil, List.mem_filter]
  constructor
  · rintro ⟨hmem, hcont⟩
    exact ⟨hmem, by simpa [List.contains, List.elem_iff] using hcont⟩
  · rintro ⟨hmem, hin⟩
    exact ⟨hmem, by simpa [List.contains, List.elem_iff] using hin⟩

/-- Witness for C3 at a concrete collection: with allow-list `["Alice"]`,
Alice's record (author is the fourth field) survives into the result. -/
theorem author_allowlist_filter_witness :
    (⟨"r", "p", "h1", "Alice", "d1", "s1", ""⟩ : CommitRecord) ∈
      exportHistory (some ["Alice"])
        [Except.ok [⟨"r", "p", "h1", "Alice", "d1", "s1", ""⟩,
                    ⟨"r", "p", "h2", "Bob", "d2", "s2", ""⟩]] := by
  rw [(author_allowlist_filter ["Alice"]
    [Except.ok [⟨"r", "p", "h1", "Alice", "d1", "s1", ""⟩,
                ⟨"r", "p", "h2", "Bob", "d2", "s2", ""⟩]] []
    ⟨"r", "p", "h1", "Alice", "d1", "s1", ""⟩).1 (by decide)]
  exact ⟨by decide, by decide⟩

/-- C4: a repository whose extraction or processing fails — `git log`
timeout, non-zero exit or exception, clone timeout, clone non-zero exit or
exception — contributes the empty record list, and a task whose exception
reaches the result-collection loop is skipped there, so the collection over
the remaining repositories is unchanged and returns normally. -/
theorem per_repo_failure_isolated :
    (∀ r p, getCommitHistory r p ExecOutcome.timeout = []) ∧
    (∀ r p m, getCommitHistory r p (ExecOutcome.exc m) = []) ∧
    (∀ r p code out err, code ≠ 0 →
      getCommitHistory r p (ExecOutcome.completed code out err) = []) ∧
    (∀ pe td logOut repo, pe repo.urlD = false →
      (processRepository pe td ExecOutcome.timeout logOut repo).2 = []) ∧
    (∀ pe td logOut repo m, pe repo.urlD = false →
      (processRepository pe td (ExecOutcome.exc m) logOut repo).2 = []) ∧
    (∀ pe td logOut repo code so se, pe repo.urlD = false → code ≠ 0 →
      (processRepository pe td (ExecOutcome.completed code so se) logOut repo).2
        = []) ∧
    (∀ rs1 rs2 e, collectResults (rs1 ++ Except.error e :: rs2) =
      collectResults (rs1 ++ rs2)) := by
  refine ⟨fun r p => rfl, fun r p m => rfl, ?_, ?_, ?_, ?_, ?_⟩
  · intro r p code out err hcode
    simp [getCommitHistory, hcode]
  · intro pe td logOut repo hpe
    by_cases hurl : repo.urlD = ""
    · simp [processRepository, hurl]
    · simp [processRepository, hurl, hpe]
  · intro pe td logOut repo m hpe
    by_cases hurl : repo.urlD = ""
    · simp [processRepository, hurl]
    · simp [processRepository, hurl, hpe]
  · intro pe td logOut repo code so se hpe hcode
    by_cases hurl : repo.urlD = ""
    · simp [processRepository, hurl]
    · simp [processRepository, hurl, hpe, hcode]
  · intro rs1 rs2 e
    induction rs1 with
    | nil => rfl
    | cons r rest ih =>
      cases r with
      | ok commits =>
        simp only [List.cons_append, collectResults, List.append_eq] at ih ⊢
        rw [ih]
      | error msg =>
        simp only [List.cons_append, collectResults, List.append_eq] at ih ⊢
        exact ih

/-- Witness for C4: a failing `git log` and a failing clone both yield zero
records at concrete inputs, and an error entry in a concrete result list
contributes nothing. -/
theorem per_repo_failure_isolated_witness :
    getCommitHistory "r" "p" (ExecOutcome.completed 1 "h|A|d|s" "") = [] ∧
    (processRepository (fun _ => false) "tmp" ExecOutcome.timeout
      (ExecOutcome.completed 0 "h|A|d|s" "") ⟨some "n", some "u", none⟩).2 = [] ∧
    collectResults [Except.error "boom"] = collectResults [] :=
  ⟨per_repo_failure_isolated.2.2.1 "r" "p" 1 "h|A|d|s" "" (by decide),
   per_repo_failure_isolated.2.2.2.1 (fun _ => false) "tmp"
     (ExecOutcome.completed 0 "h|A|d|s" "") ⟨some "n", some "u", none⟩ rfl,
   per_repo_failure_isolated.2.2.2.2.2.2 [] [] "boom"⟩

theorem mainRun_eq_of_none {c : Option (List RepoDescriptor)}
    {a : Option (List String)} (h : selectRepositories c a = none)
    (o : CollectOutcome) : mainRun c a o = ⟨1, false⟩ := by
  unfold mainRun
  rw [h]

theorem mainRun_eq_of_some_interrupt {c : Option (List RepoDescriptor)}
    {a : Option (List String)} {rs : List RepoDescriptor}
    (h : selectRepositories c a = some rs) :
    mainRun c a CollectOutcome.interrupt = ⟨1, false⟩ := by
  unfold mainRun
  rw [h]

theorem mainRun_eq_of_some_exc {c : Option (List RepoDescriptor)}
    {a : Option (List String)} {rs : List RepoDescriptor}
    (h : selectRepositories c a = some rs) (m : String) :
    mainRun c a (CollectOutcome.exc m) = ⟨1, false⟩ := by
  unfold mainRun
  rw [h]

theorem mainRun_eq_of_some_ok {c : Option (List RepoDescriptor)}
    {a : Option (List String)} {rs : List RepoDescriptor}
    (h : selectRepositories c a = some rs) (commits : List CommitRecord) :
    mainRun c a (CollectOutcome.ok commits) =
      if commits.isEmpty then ⟨1, false⟩ else ⟨0, true⟩ := by
  unfold mainRun
  rw [h]

/-- C7: `main` returns 0 exactly when the collection succeeded with at least
one commit (and then the output files are written); it returns 1 with no
files written when no repositories are specified, when zero commits are
collected, on an unhandled exception, and on `KeyboardInterrupt`. -/
theorem main_exit_codes (configRepos : Option (List RepoDescriptor))
    (argsRepos : Option (List String)) (outcome : CollectOutcome) :
    ((mainRun configRepos argsRepos outcome).exitCode = 0 ↔
      ((mainRun configRepos argsRepos outcome).filesWritten = true ∧
        ∃ commits, outcome = CollectOutcome.ok commits ∧ commits ≠ [] ∧
          selectRepositories configRepos argsRepos ≠ none)) ∧
    (selectRepositories configRepos argsRepos = none →
      mainRun configRepos argsRepos outcome = ⟨1, false⟩) ∧
    (mainRun configRepos argsRepos (CollectOutcome.ok []) = ⟨1, false⟩) ∧
    (∀ m, mainRun configRepos argsRepos (CollectOutcome.exc m) = ⟨1, false⟩) ∧
    (mainRun configRepos argsRepos CollectOutcome.interrupt = ⟨1, false⟩) := by
  cases hsel : selectRepositories configRepos argsRepos with
  | none =>
    refine ⟨?_, fun _ => mainRun_eq_of_none hsel _, mainRun_eq_of_none hsel _,
      fun m => mainRun_eq_of_none hsel _, mainRun_eq_of_none hsel _⟩
    rw [mainRun_eq_of_none hsel]
    simp [hsel]
  | some repos =>
    have hne : selectRepositories configRepos argsRepos ≠ none := by
      rw [hsel]
      simp
    refine ⟨?_, fun habs => Option.noConfusion habs,
      by rw [mainRun_eq_of_some_ok hsel]; simp,
      fun m => mainRun_eq_of_some_exc hsel m, mainRun_eq_of_some_interrupt hsel⟩
    cases outcome with
    | interrupt =>
      rw [mainRun_eq_of_some_interrupt hsel]
      simp
    | exc m =>
      rw [mainRun_eq_of_some_exc hsel]
      simp
    | ok commits =>
      rw [mainRun_eq_of_some_ok hsel]
      by_cases hc : commits.isEmpty
      · rw [if_pos hc]
        simp
      · rw [if_neg hc]
        have hc' : commits ≠ [] := by simpa [List.isEmpty_iff] using hc
        simp [hc', hne]

/-- Witness for C7: a run with no repositories specified exits 1 with no
files; a run with a configured repository and one collected commit exits 0
with the files written. -/
theorem main_exit_codes_witness :
    mainRun none none (CollectOutcome.ok [⟨"r", "p", "h", "A", "d", "s", ""⟩]) =
      ⟨1, false⟩ ∧
    mainRun (some [⟨some "n", some "u", none⟩]) none
      (CollectOutcome.ok [⟨"r", "p", "h", "A", "d", "s", ""⟩]) = ⟨0, true⟩ :=
  ⟨(main_exit_codes none none
      (CollectOutcome.ok [⟨"r", "p", "h", "A", "d", "s", ""⟩])).2.1 rfl,
   by decide⟩

/-- C8: a repository descriptor whose url refers to an existing local path
is used directly as the working tree — the only external operation is the
`git log` at that path, so no clone is invoked and no temporary workspace is
acquired. -/
theorem local_repo_used_directly (pe : String → Bool) (td : String)
    (cloneOut logOut : ExecOutcome) (repo : RepoDescriptor)
    (hurl : repo.urlD ≠ "") (hexists : pe repo.urlD = true) :
    processRepository pe td cloneOut logOut repo =
      ([GitEffect.gitLog repo.urlD],
        getCommitHistory repo.nameD repo.projectD logOut) ∧
    GitEffect.acquireWorkspace ∉ (processRepository pe td cloneOut logOut repo).1 ∧
    (∀ u, GitEffect.clone u ∉ (processRepository pe td cloneOut logOut repo).1) := by
  have hmain : processRepository pe td cloneOut logOut repo =
      ([GitEffect.gitLog repo.urlD],
        getCommitHistory repo.nameD repo.projectD logOut) := by
    unfold processRepository
    rw [if_neg hurl, if_pos hexists]
  refine ⟨hmain, ?_, ?_⟩
  · rw [hmain]
    simp
  · intro u
    rw [hmain]
    simp

/-- Witness for C8: a concrete local repository — the path exists, no
workspace is acquired, no clone runs. -/
theorem local_repo_used_directly_witness :
    processRepository (fun s => s == "/repos/proj") "tmp" ExecOutcome.timeout
      (ExecOutcome.completed 0 "h|A|d|s" "")
      ⟨some "proj", some "/repos/proj", some "P"⟩ =
      ([GitEffect.gitLog "/repos/proj"],
        getCommitHistory "proj" "P" (ExecOutcome.completed 0 "h|A|d|s" "")) :=
  (local_repo_used_directly (fun s => s == "/repos/proj") "tmp"
    ExecOutcome.timeout (ExecOutcome.completed 0 "h|A|d|s" "")
    ⟨some "proj", some "/repos/proj", some "P"⟩ (by decide) (by decide)).1

/-- C9: workspace cleanup never propagates an exception: its result is
always `ok`; a `PermissionError` from the standard recursive deletion leads
to exactly the one platform-specific fallback attempt, whose own failure is
reduced to a logged warning; any other deletion error is reduced to a logged
warning. -/
theorem cleanup_never_raises (dirExists : Bool)
    (rmtreeOutcome fallbackOutcome : Except PyError Unit) :
    (∃ s, cleanupDirectory dirExists rmtreeOutcome fallbackOutcome =
      Except.ok s) ∧
    (cleanupDirectory true (Except.error PyError.permissionError)
      (Except.ok ()) = Except.ok CleanupStatus.cleanedWindows) ∧
    (∀ e, cleanupDirectory true (Except.error PyError.permissionError)
      (Except.error e) = Except.ok (CleanupStatus.warnedFallback e.message)) ∧
    (∀ m, cleanupDirectory true (Except.error (PyError.other m))
      fallbackOutcome = Except.ok (CleanupStatus.warnedOther m)) := by
  refine ⟨?_, rfl, fun e => rfl, fun m => rfl⟩
  cases dirExists with
  | false => exact ⟨CleanupStatus.nothingToDo, rfl⟩
  | true =>
    cases rmtreeOutcome with
    | ok u => exact ⟨CleanupStatus.cleaned, rfl⟩
    | error e =>
      cases e with
      | permissionError =>
        cases fallbackOutcome with
        | ok u => exact ⟨CleanupStatus.cleanedWindows, rfl⟩
        | error e2 => exact ⟨CleanupStatus.warnedFallback e2.message, rfl⟩
      | other m => exact ⟨CleanupStatus.warnedOther m, rfl⟩

/-- C10: a repository descriptor with a missing or empty url yields no
external operations and no records — it contributes zero commits and the
run goes on. -/
theorem missing_url_skipped (pe : String → Bool) (td : String)
    (cloneOut logOut : ExecOutcome) (repo : RepoDescriptor)
    (h : repo.url = none ∨ repo.url = some "") :
    processRepository pe td cloneOut logOut repo = ([], []) := by
  have hurl : repo.urlD = "" := by
    cases h with
    | inl h => rw [RepoDescriptor.urlD, h]; rfl
    | inr h => rw [RepoDescriptor.urlD, h]; rfl
  unfold processRepository
  rw [if_pos hurl]

/-- Witness for C10: a descriptor with no url key and one with an empty url
both yield nothing at concrete inputs. -/
theorem missing_url_skipped_witness :
    processRepository (fun _ => true) "tmp" ExecOutcome.timeout
      (ExecOutcome.completed 0 "h|A|d|s" "") ⟨some "n", none, none⟩ = ([], []) ∧
    processRepository (fun _ => true) "tmp" ExecOutcome.timeout
      (ExecOutcome.completed 0 "h|A|d|s" "") ⟨some "n", some "", none⟩ =
      ([], []) :=
  ⟨missing_url_skipped (fun _ => true) "tmp" ExecOutcome.timeout
    (ExecOutcome.completed 0 "h|A|d|s" "") ⟨some "n", none, none⟩ (Or.inl rfl),
   missing_url_skipped (fun _ => true) "tmp" ExecOutcome.timeout
    (ExecOutcome.completed 0 "h|A|d|s" "") ⟨some "n", some "", none⟩ (Or.inr rfl)⟩

theorem csvParseQuoted_escape (f : List Char) :
    ∀ (acc : List Char) (x : Char) (xs : List Char), x ≠ '"' →
      csvParseQuoted (csvEscape f ++ '"' :: x :: xs) acc =
        (acc.reverse ++ f, x :: xs) := by
  induction f with
  | nil =>
    intro acc x xs hx
    simp only [csvEscape, List.nil_append]
    rw [csvParseQuoted, if_pos rfl, if_neg hx]
    simp
  | cons c f' ih =>
    intro acc x xs hx
    by_cases hc : c = '"'
    · subst hc
      rw [show csvEscape ('"' :: f') = '"' :: '"' :: csvEscape f' from by
        simp [csvEscape]]
      rw [List.cons_append, List.cons_append]
      rw [csvParseQuoted, if_pos rfl, if_pos rfl]
      rw [ih ('"' :: acc) x xs hx]
      simp
    · rw [show csvEscape (c :: f') = c :: csvEscape f' from by simp [csvEscape, hc]]
      cases hL : csvEscape f' with
      | nil =>
        rw [List.singleton_append]
        rw [csvParseQuoted, if_neg hc]
        have hih := ih (c :: acc) x xs hx
        rw [hL, List.nil_append] at hih
        rw [hih]
        simp
      | cons e es =>
        rw [List.cons_append, List.cons_append]
        rw [csvParseQuoted, if_neg hc]
        have hih := ih (c :: acc) x xs hx
        rw [hL, List.cons_append] at hih
        rw [hih]
        simp

theorem csvTakeUnquoted_clean (f : List Char)
    (hf : ∀ c ∈ f, (c = ',' || c = '\r' || c = '\n') = false) (x : Char)
    (xs : List Char) (hx : (x = ',' || x = '\r' || x = '\n') = true) :
    csvTakeUnquoted (f ++ x :: xs) = (f, x :: xs) := by
  induction f with
  | nil =>
    rw [List.nil_append, csvTakeUnquoted, if_pos hx]
  | cons c f' ih =>
    have hc := hf c (by simp)
    rw [List.cons_append, csvTakeUnquoted, if_neg (by simp [hc])]
    rw [ih (fun a ha => hf a (by simp [ha]))]

theorem not_special_of_needsQuote_false {f : List Char}
    (h : csvNeedsQuote f = false) :
    ∀ c ∈ f, (c = ',' || c = '\r' || c = '\n') = false ∧ c ≠ '"' := by
  intro c hc
  unfold csvNeedsQuote at h
  rw [List.any_eq_false] at h
  have hcspec := h c hc
  simp only [Bool.or_eq_true, decide_eq_true_eq, not_or] at hcspec
  exact ⟨by simp [hcspec.1.1.1, hcspec.1.2, hcspec.2], hcspec.1.1.2⟩

theorem csvQuoteField_clean {f : List Char} (h : csvNeedsQuote f = false) :
    csvQuoteField f = f := by
  unfold csvQuoteField
  rw [if_neg (by simp [h])]

theorem csvJoinFields_cons_cons (g g2 : List Char) (t : List (List Char)) :
    csvJoinFields (g :: g2 :: t) = g ++ ',' :: csvJoinFields (g2 :: t) := rfl

theorem csvJoinFields_length (gs : List (List Char)) :
    gs.length ≤ (csvJoinFields gs).length + 1 := by
  induction gs with
  | nil => simp [csvJoinFields]
  | cons g rest ih =>
    cases rest with
    | nil => simp [csvJoinFields]
    | cons g2 t =>
      rw [csvJoinFields_cons_cons]
      simp only [List.length_cons, List.length_append] at ih ⊢
      omega

theorem csvParseField_no_quote_head (l : List Char)
    (h : ∀ e, l.head? = some e → e ≠ '"') :
    csvParseField l = csvTakeUnquoted l := by
  cases l with
  | nil => rfl
  | cons c cs =>
    rw [csvParseField, if_neg (h c rfl)]

theorem csvParseField_quoteField (f : List Char) (x : Char) (xs : List Char)
    (hx : x = ',' ∨ x = '\r' ∨ x = '\n') :
    csvParseField (csvQuoteField f ++ x :: xs) = (f, x :: xs) := by
  have hxq : x ≠ '"' := by rcases hx with h | h | h <;> simp [h]
  have hxbool : (x = ',' || x = '\r' || x = '\n') = true := by
    rcases hx with h | h | h <;> simp [h]
  by_cases hq : csvNeedsQuote f
  · unfold csvQuoteField
    rw [if_pos hq]
    rw [List.cons_append, List.append_assoc]
    rw [show (['"'] ++ x :: xs : List Char) = '"' :: x :: xs from rfl]
    rw [csvParseField, if_pos rfl]
    rw [csvParseQuoted_escape f [] x xs hxq]
    simp
  · have hq' : csvNeedsQuote f = false := by simpa using hq
    rw [csvQuoteField_clean hq']
    have hspec := not_special_of_needsQuote_false hq'
    rw [csvParseField_no_quote_head]
    · exact csvTakeUnquoted_clean f (fun a ha => (hspec a ha).1) x xs hxbool
    · intro e he
      cases f with
      | nil =>
        rw [List.nil_append, List.head?_cons, Option.some_inj] at he
        subst he
        exact hxq
      | cons c cs =>
        rw [List.cons_append, List.head?_cons, Option.some_inj] at he
        subst he
        exact (hspec _ (by simp)).2

theorem csvParseRecordAux_round (fs : List (List Char)) :
    ∀ fuel : Nat, fs.length ≤ fuel → fs ≠ [] →
      csvParseRecordAux fuel
        (csvJoinFields (fs.map csvQuoteField) ++ ['\r', '\n']) = fs := by
  induction fs with
  | nil => intro fuel _ hne; exact absurd rfl hne
  | cons f rest ih =>
    intro fuel hlen hne
    obtain ⟨fuel', rfl⟩ : ∃ n, fuel = n + 1 := by
      cases fuel with
      | zero => simp at hlen
      | succ n => exact ⟨n, rfl⟩
    cases rest with
    | nil =>
      rw [show (([f] : List (List Char)).map csvQuoteField) =
        [csvQuoteField f] from rfl]
      rw [show csvJoinFields [csvQuoteField f] = csvQuoteField f from rfl]
      rw [csvParseRecordAux]
      rw [show (['\r', '\n'] : List Char) = '\r' :: ['\n'] from rfl]
      rw [csvParseField_quoteField f '\r' ['\n'] (Or.inr (Or.inl rfl))]
      simp
    | cons f2 t =>
      rw [show ((f :: f2 :: t).map csvQuoteField) =
        csvQuoteField f :: csvQuoteField f2 :: t.map csvQuoteField from rfl]
      rw [csvJoinFields_cons_cons]
      rw [List.append_assoc]
      rw [List.cons_append]
      rw [csvParseRecordAux]
      rw [csvParseField_quoteField f ','
        (csvJoinFields (csvQuoteField f2 :: t.map csvQuoteField) ++ ['\r', '\n'])
        (Or.inl rfl)]
      simp only [List.length_cons] at hlen
      have hrec := ih fuel' (by simp only [List.length_cons]; omega) (by simp)
      rw [show ((f2 :: t).map csvQuoteField) =
        csvQuoteField f2 :: t.map csvQuoteField from rfl] at hrec
      simp [hrec]

theorem csvParseRecord_writeRow (fields : List String) (h : fields ≠ []) :
    csvParseRecord (csvWriteRow fields) = fields := by
  unfold csvParseRecord csvWriteRow csvWriteRowChars
  have hne : fields.map String.data ≠ [] := by
    simpa using h
  have hjoin := csvJoinFields_length ((fields.map String.data).map csvQuoteField)
  have hfuel : (fields.map String.data).length ≤
      (csvJoinFields ((fields.map String.data).map csvQuoteField) ++
        ['\r', '\n']).length + 1 := by
    simp only [List.length_append, List.length_map] at hjoin ⊢
    omega
  rw [csvParseRecordAux_round (fields.map String.data) _ hfuel hne]
  rw [List.map_map]
  have hcomp : ((fun f : List Char => (⟨f⟩ : String)) ∘ String.data) = id :=
    funext fun s => rfl
  rw [hcomp, List.map_id]

/-- C6: re-reading a written CSV row reproduces a commit record's 7 field
values verbatim (for all field contents, ASCII included), and the written
header row re-reads as exactly
`repository, project, hash, author_name, date, subject, body`. -/
theorem csv_round_trip (c : CommitRecord) :
    csvParseRecord (csvWriteRow (commitFields c)) = commitFields c ∧
    csvParseRecord csvHeaderRow =
      ["repository", "project", "hash", "author_name", "date", "subject",
       "body"] :=
  ⟨csvParseRecord_writeRow (commitFields c) (by simp [commitFields]),
   csvParseRecord_writeRow csvFieldnames (by simp [csvFieldnames])⟩
